/-
  Verification of the bladebit bucketed external-sort pipeline engine.

  Shallow embedding of:
    - src/plotdisk/DiskF1.h               (F1 generator)
    - src/diskplot/jobs/FxGenBucketized.cpp (Fx evaluator + bucket distributor)
    - src/diskplot/DiskBufferQueue.cpp    (command queue write paths)

  Machine integers are modelled as Nat with explicit `% 2^w` where overflow
  can occur.  Bit operations `a << n | b` on disjoint ranges are written as
  `a * 2^n + b`, with the original expression quoted in a comment.
-/
import Mathlib

namespace BladebitSpec

/-! ## Generic byte/word helpers -/

/-- Big-endian interpretation of a byte list as a natural number. -/
def beNat (l : List Nat) : Nat := l.foldl (fun a b => a * 256 + b) 0

/-- The 8 big-endian bytes of a 64-bit word. -/
def beBytes8 (w : Nat) : List Nat :=
  [w / 2^56 % 256, w / 2^48 % 256, w / 2^40 % 256, w / 2^32 % 256,
   w / 2^24 % 256, w / 2^16 % 256, w / 2^8 % 256, w % 256]

theorem beNat_nil : beNat [] = 0 := rfl

theorem beNat_append (a b : List Nat) :
    beNat (a ++ b) = beNat a * 256 ^ b.length + beNat b := by
  induction b using List.reverseRecOn with
  | nil => simp [beNat]
  | append_singleton b x ih =>
      have h1 : a ++ (b ++ [x]) = (a ++ b) ++ [x] := by simp
      have h2 : ∀ l : List Nat, beNat (l ++ [x]) = beNat l * 256 + x := by
        intro l; simp [beNat, List.foldl_append]
      rw [h1, h2, h2, ih]
      simp only [List.length_append, List.length_singleton, pow_succ]
      ring

theorem beNat_lt (l : List Nat) (h : ∀ b ∈ l, b < 256) :
    beNat l < 256 ^ l.length := by
  induction l using List.reverseRecOn with
  | nil => simp [beNat]
  | append_singleton b x ih =>
      have hx : x < 256 := h x (by simp)
      have hb : beNat b < 256 ^ b.length := ih (fun y hy => h y (by simp [hy]))
      have : beNat (b ++ [x]) = beNat b * 256 + x := by
        simp [beNat, List.foldl_append]
      rw [this]
      simp only [List.length_append, List.length_singleton, pow_succ]
      nlinarith

/-- `RoundUpToNextBoundary(value, boundary) = (value + boundary - 1) / boundary * boundary`.
    Modelled from the spec: `Util.h` is not in src; rounds `value` up to the
    next multiple of `boundary` (direct-I/O alignment). -/
def roundUpToNextBoundary (value boundary : Nat) : Nat :=
  (value + boundary - 1) / boundary * boundary

/-! ## DiskF1.h : the F1 generator -/

/-- `CDiv(a, b) = (a + b - 1) / b`.
    Modelled from the spec: `Util.h` is not in src; `CDiv` is ceiling
    division (used for `_entriesPerBucket = CDiv(1ull << _k, _numBuckets)`). -/
def cdiv (a b : Nat) : Nat := (a + b - 1) / b

/-- kExtraBits. Modelled from the spec: `Config.h` is not in src; the spec
    fixes `kExtraBits = 6` (glossary), matching the hard-coded 6-bit bucket
    tags (`& 0b111111`) and 26-bit shifts in the source. -/
def kExtraBits : Nat := 6

/-- The plot parameter `_K`. Modelled from the spec: `Config.h` is not in
    src; the spec states k is typically 32, and the source hard-codes
    shifts (26 = 64 - (32+6), 38 = 32+6) that assume k = 32. -/
def kParam : Nat := 32

/-- One iteration of the per-bucket loop of `DiskF1::GenF1`
    (src/plotdisk/DiskF1.h lines 87-182): each bucket generates
    `bucketEntryCount = min(_entriesPerBucket, tableEntryCount)` entries and
    `tableEntryCount` decreases by that amount. Returns the per-bucket
    generated entry counts for `n` buckets with `remaining` entries left. -/
def f1BucketCountsAux (epb : Nat) : Nat → Nat → List Nat
  | 0, _ => []
  | n + 1, remaining =>
      let c := min epb remaining
      c :: f1BucketCountsAux epb n (remaining - c)

/-- Per-bucket entry counts of a full `GenF1` run:
    `_entriesPerBucket = CDiv(2^k, B)`, starting from `tableEntryCount = 2^k`. -/
def f1BucketCounts (k B : Nat) : List Nat :=
  f1BucketCountsAux (cdiv (2 ^ k) B) B (2 ^ k)

/-- The packed F1 entry produced at src/plotdisk/DiskF1.h lines 142-144:
      `y = ((y << kExtraBits) | (xi >> (k - kExtraBits))) & yMask;`
      `entries[dst] = (xi << yBits) | y;`
    `rawY` is the byte-swapped 32-bit cipher chunk (`Swap32(blocks[i])`),
    `yBits` is `Info::YBitSize` (DiskPlotInfo.h is not in src, so the width
    is kept as a parameter). The ors are on disjoint bit ranges, written as
    additions; the uint64 store is `% 2^64`. -/
def f1PackEntry (yBits rawY x : Nat) : Nat :=
  let y := (rawY * 2 ^ kExtraBits + x / 2 ^ (kParam - kExtraBits)) % 2 ^ yBits
  (x * 2 ^ yBits % 2 ^ 64 + y) % 2 ^ 64

/-- The record layout asserted by the spec (refinement target, for
    comparison with `f1PackEntry`): `(y : k+kExtraBits) || (x : k)`, i.e.
    y in the high bits followed by x in the low k bits. -/
def specF1Record (yBits rawY x : Nat) : Nat :=
  let y := (rawY * 2 ^ kExtraBits + x / 2 ^ (kParam - kExtraBits)) % 2 ^ yBits
  y * 2 ^ kParam + x

/-- `kF1BlockSize` (bytes per ChaCha8 block). Modelled from the spec:
    `chacha8.h` is not in src; the spec fixes 512-bit (64-byte) blocks, and
    `PlotValidator.cpp` sizes `byte blocks[kF1BlockSize*2]` for two blocks. -/
def kF1BlockSize : Nat := 64

/-- `kF1BlockSizeBits = 512`. Modelled from the spec (512-bit blocks). -/
def kF1BlockSizeBits : Nat := 512

/-- `entriesPerBlock = kF1BlockSizeBits / _k`
    (src/plotdisk/DiskF1.h lines 33 and 66). -/
def entriesPerBlockF1 (k : Nat) : Nat := kF1BlockSizeBits / k

/-- The ChaCha counter at which a worker starts generating, from
    src/plotdisk/DiskF1.h line 97: `chachaBlock = x / kF1BlockSize`. -/
def f1ChachaBlock (x : Nat) : Nat := x / kF1BlockSize

/-- The starting x of worker `id` for a bucket beginning at `nextX`
    (src/plotdisk/DiskF1.h lines 91-92):
    `entriesPerThread = bucketEntryCount / threadCount;`
    `x = nextX + entriesPerThread * id`. -/
def f1WorkerStartX (nextX bucketEntryCount threadCount id : Nat) : Nat :=
  nextX + bucketEntryCount / threadCount * id

/-- The F1 block index used by the validator oracle
    (src/tools/PlotValidator.cpp line 568): `blockIdx = x * k / kF1BlockSizeBits`. -/
def validatorF1BlockIdx (k x : Nat) : Nat := x * k / kF1BlockSizeBits

/-! ### C5: GenF1 produces exactly 2^k entries -/

theorem f1BucketCountsAux_length (epb n r : Nat) :
    (f1BucketCountsAux epb n r).length = n := by
  induction n generalizing r with
  | zero => rfl
  | succ n ih => simp [f1BucketCountsAux, ih]

theorem f1BucketCountsAux_sum (epb n r : Nat) :
    (f1BucketCountsAux epb n r).sum = min (n * epb) r := by
  induction n generalizing r with
  | zero => simp [f1BucketCountsAux]
  | succ n ih =>
      simp only [f1BucketCountsAux, List.sum_cons, ih]
      have h : (n + 1) * epb = n * epb + epb := by ring
      omega

theorem f1BucketCountsAux_get (epb : Nat) :
    ∀ n r b (hb : b < n),
      (f1BucketCountsAux epb n r).get ⟨b, by rw [f1BucketCountsAux_length]; exact hb⟩
        = min epb (r - ((f1BucketCountsAux epb n r).take b).sum) := by
  intro n
  induction n with
  | zero => intro r b hb; omega
  | succ n ih =>
      intro r b hb
      match b with
      | 0 => simp [f1BucketCountsAux]
      | b + 1 =>
          have hb' : b < n := by omega
          simp only [f1BucketCountsAux, List.get_cons_succ, List.take_succ_cons,
            List.sum_cons]
          rw [ih (r - min epb r) b hb']
          congr 1
          omega

/-- Lower bound for ceiling division: `B * cdiv a B ≥ a` when `0 < B`. -/
theorem cdiv_mul_ge (a B : Nat) (hB : 0 < B) : a ≤ B * cdiv a B := by
  unfold cdiv
  have h1 := Nat.div_add_mod (a + B - 1) B
  have h2 := Nat.mod_lt (a + B - 1) hB
  omega

/-- C5: a full run of GenF1 produces exactly `2^k` entries across the `B`
    buckets; bucket `b` receives `min(ceil(2^k / B), remaining)` entries,
    where `remaining` is the total minus the entries of earlier buckets. -/
theorem genF1_total_entries (k B : Nat) (hB : ∃ m, B = 2 ^ m) :
    (f1BucketCounts k B).length = B ∧
    (f1BucketCounts k B).sum = 2 ^ k ∧
    (∀ b (hb : b < B),
      (f1BucketCounts k B).get ⟨b, by rw [f1BucketCounts, f1BucketCountsAux_length]; exact hb⟩
        = min (cdiv (2 ^ k) B) (2 ^ k - ((f1BucketCounts k B).take b).sum)) := by
  obtain ⟨m, rfl⟩ := hB
  have hBpos : 0 < 2 ^ m := Nat.pos_pow_of_pos m (by norm_num)
  refine ⟨f1BucketCountsAux_length _ _ _, ?_, ?_⟩
  · rw [f1BucketCounts, f1BucketCountsAux_sum]
    have := cdiv_mul_ge (2 ^ k) (2 ^ m) hBpos
    omega
  · intro b hb
    exact f1BucketCountsAux_get _ _ _ _ hb

/-! ### C6: the packed F1 record -/

/-- C6 counterexample: at `rawY = 1`, `x = 0` (with the y width the claim
    asserts, `k + kExtraBits = 38` bits) the record produced by the code is
    `64`, not the `64 << 32` the claimed `(y : k+kExtraBits) || (x : k)`
    layout would give: the code stores x in the high bits, not y. -/
theorem f1_record_layout_counterexample :
    f1PackEntry 38 1 0 = 64 ∧ specF1Record 38 1 0 = 64 * 2 ^ 32 ∧
    f1PackEntry 38 1 0 ≠ specF1Record 38 1 0 := by decide

/-- C6 (amended): the bit-packed record emitted for x is x followed by the
    entry value y — layout `(x : k) || (y : yBits)` with x in the high k
    bits — where `y = ((rawY << kExtraBits) | (x >> (k - kExtraBits)))`
    truncated to `yBits` bits (`yBits` is the configured `Info::YBitSize`),
    and `rawY` is the byte-swapped 32-bit chunk of the cipher block for x:
    the record's high bits are exactly x and its low `yBits` bits are
    exactly y. -/
theorem f1_record_layout (yBits rawY x : Nat)
    (hx : x < 2 ^ kParam) (hw : yBits + kParam ≤ 64) :
    f1PackEntry yBits rawY x / 2 ^ yBits = x ∧
    f1PackEntry yBits rawY x % 2 ^ yBits
      = (rawY * 2 ^ kExtraBits + x / 2 ^ (kParam - kExtraBits)) % 2 ^ yBits := by
  unfold f1PackEntry
  set y := (rawY * 2 ^ kExtraBits + x / 2 ^ (kParam - kExtraBits)) % 2 ^ yBits with hy
  have hylt : y < 2 ^ yBits := Nat.mod_lt _ (Nat.pos_pow_of_pos _ (by norm_num))
  have hxy : x * 2 ^ yBits + y < 2 ^ 64 := by
    have h1 : (x + 1) * 2 ^ yBits ≤ 2 ^ kParam * 2 ^ yBits :=
      Nat.mul_le_mul_right _ (by omega)
    have h2 : 2 ^ kParam * 2 ^ yBits ≤ 2 ^ 64 := by
      rw [← pow_add]
      exact Nat.pow_le_pow_right (by norm_num) (by omega)
    nlinarith
  have hm1 : x * 2 ^ yBits % 2 ^ 64 = x * 2 ^ yBits :=
    Nat.mod_eq_of_lt (by nlinarith)
  rw [hm1, Nat.mod_eq_of_lt hxy]
  constructor
  · rw [Nat.add_comm, Nat.mul_comm, Nat.add_mul_div_left _ _ (Nat.pos_pow_of_pos _ (by norm_num)),
      Nat.div_eq_of_lt hylt]
    omega
  · rw [Nat.add_comm, Nat.mul_comm, Nat.add_mul_mod_self_left, Nat.mod_eq_of_lt hylt]

/-- Witness for C6 (amended) at `yBits = 32`, `rawY = 3`, `x = 5`. -/
theorem f1_record_layout_witness :
    (5 < 2 ^ kParam ∧ 32 + kParam ≤ 64) ∧
    (f1PackEntry 32 3 5 / 2 ^ 32 = 5 ∧
     f1PackEntry 32 3 5 % 2 ^ 32
       = (3 * 2 ^ kExtraBits + 5 / 2 ^ (kParam - kExtraBits)) % 2 ^ 32) :=
  ⟨by decide, f1_record_layout 32 3 5 (by decide) (by decide)⟩

/-! ### C7: the worker start counter disagrees with the entry/block geometry -/

/-- C7: the ChaCha counter at which a worker starts is computed as
    `x / kF1BlockSize` (64, the block size in bytes) instead of
    `x / entriesPerBlock` (16 for k = 32). At bucket start `0` with
    `E_b = 2048` and `T = 2`, worker 1 starts at `x = 1024`: the code uses
    counter 16 while the spec's formula — and the in-repo validator oracle
    `GetProofF1` — place x = 1024 in block 64, so the cipher block an x is
    paired with changes with the worker count. -/
theorem f1_chacha_counter_mismatch :
    f1WorkerStartX 0 2048 2 1 = 1024 ∧
    f1ChachaBlock (f1WorkerStartX 0 2048 2 1) = 16 ∧
    f1WorkerStartX 0 2048 2 1 / entriesPerBlockF1 kParam = 64 ∧
    validatorF1BlockIdx kParam (f1WorkerStartX 0 2048 2 1) = 64 ∧
    f1ChachaBlock (f1WorkerStartX 0 2048 2 1)
      ≠ f1WorkerStartX 0 2048 2 1 / entriesPerBlockF1 kParam := by decide

/-- Witness for C5 at `k = 12`, `B = 64`. -/
theorem genF1_total_entries_witness :
    (∃ m, 64 = 2 ^ m) ∧
    ((f1BucketCounts 12 64).length = 64 ∧
     (f1BucketCounts 12 64).sum = 2 ^ 12 ∧
     (∀ b (hb : b < 64),
       (f1BucketCounts 12 64).get ⟨b, by rw [f1BucketCounts, f1BucketCountsAux_length]; exact hb⟩
         = min (cdiv (2 ^ 12) 64) (2 ^ 12 - ((f1BucketCounts 12 64).take b).sum))) :=
  ⟨⟨6, by norm_num⟩, genF1_total_entries 12 64 ⟨6, by norm_num⟩⟩

/-! ## DiskBufferQueue.cpp : WriteBuckets / WriteToFile -/

/-- The bytes a single `DiskBufferQueue::WriteToFile` call
    (src/diskplot/DiskBufferQueue.cpp lines 399-455) puts on disk:
    `fromBuffer` bytes taken from the caller's buffer, plus, in direct-I/O
    mode when `size mod S ≠ 0`, one `S`-sized block from the zero-padded
    bounce buffer (`tailBlock`). Without direct I/O the full `size` is
    written from the buffer. -/
structure FileWrite where
  fromBuffer : Nat
  tailBlock  : Bool
deriving DecidableEq

/-- Embeds `DiskBufferQueue::WriteToFile`. -/
def writeToFile (directIo : Bool) (S size : Nat) : FileWrite :=
  if directIo = false then ⟨size, false⟩
  else ⟨size / S * S, decide (size % S ≠ 0)⟩

/-- Embeds the per-bucket loop of `DiskBufferQueue::CmdWriteBuckets`
    (src/diskplot/DiskBufferQueue.cpp lines 346-362): for each bucket in
    order, `writeSize` is the size truncated to a block multiple under
    direct I/O (the raw size otherwise); the source pointer then advances by
    the size rounded up to the next block boundary (the raw size otherwise).
    Returns, in bucket order, the source offset each write reads from and
    the write performed on that bucket's file. -/
def cmdWriteBucketsAux (directIo : Bool) (S : Nat) :
    List Nat → Nat → List (Nat × FileWrite)
  | [], _ => []
  | size :: rest, off =>
      let writeSize := if directIo = false then size else size / S * S
      let bufferOffset := if directIo = false then size
                          else roundUpToNextBoundary size S
      (off, writeToFile directIo S writeSize)
        :: cmdWriteBucketsAux directIo S rest (off + bufferOffset)

/-- Embeds `DiskBufferQueue::CmdWriteBuckets`: the source pointer starts at
    the base of the buckets buffer. -/
def cmdWriteBuckets (directIo : Bool) (S : Nat) (sizes : List Nat) :
    List (Nat × FileWrite) :=
  cmdWriteBucketsAux directIo S sizes 0

theorem cmdWriteBucketsAux_length (d : Bool) (S : Nat) :
    ∀ (l : List Nat) (off : Nat), (cmdWriteBucketsAux d S l off).length = l.length := by
  intro l
  induction l with
  | nil => intro off; rfl
  | cons s rest ih => intro off; simp [cmdWriteBucketsAux, ih]

theorem cmdWriteBucketsAux_get (d : Bool) (S : Nat) :
    ∀ (l : List Nat) (off : Nat) i (hi : i < l.length),
      (cmdWriteBucketsAux d S l off).get
          ⟨i, by rw [cmdWriteBucketsAux_length]; exact hi⟩
        = (off + ((l.take i).map
              (fun s => if d = false then s else roundUpToNextBoundary s S)).sum,
           writeToFile d S
             (if d = false then l.get ⟨i, hi⟩ else l.get ⟨i, hi⟩ / S * S)) := by
  intro l
  induction l with
  | nil => intro off i hi; simp at hi
  | cons s rest ih =>
      intro off i hi
      match i with
      | 0 => simp [cmdWriteBucketsAux]
      | i + 1 =>
          have hi' : i < rest.length := by simpa using hi
          simp only [cmdWriteBucketsAux, List.get_cons_succ, List.take_succ_cons,
            List.map_cons, List.sum_cons]
          rw [ih _ i hi']
          congr 1
          omega

/-- C8: a `WriteBuckets` command writes the bucket regions to the set's
    files in bucket order; under direct I/O bucket i's write takes exactly
    `floor(sizes[i]/S)*S` bytes from the source (no bounce-buffer tail
    block), and the source offset of bucket i is the sum of the earlier
    sizes each rounded up to a multiple of `S`; without direct I/O bucket
    i's write takes exactly `sizes[i]` bytes, at the sum of the earlier
    sizes. -/
theorem cmdWriteBuckets_spec (d : Bool) (S : Nat) (sizes : List Nat) (hS : 0 < S) :
    (cmdWriteBuckets d S sizes).length = sizes.length ∧
    ∀ i (hi : i < sizes.length),
      ((cmdWriteBuckets d S sizes).get
          ⟨i, by rw [cmdWriteBuckets, cmdWriteBucketsAux_length]; exact hi⟩
        = if d = false then
            ((sizes.take i).sum, ⟨sizes.get ⟨i, hi⟩, false⟩)
          else
            (((sizes.take i).map (fun s => roundUpToNextBoundary s S)).sum,
             ⟨sizes.get ⟨i, hi⟩ / S * S, false⟩)) := by
  refine ⟨by rw [cmdWriteBuckets, cmdWriteBucketsAux_length], ?_⟩
  intro i hi
  refine (cmdWriteBucketsAux_get d S sizes 0 i hi).trans ?_
  cases d with
  | false => simp [writeToFile]
  | true =>
      simp only [Bool.true_eq_false, if_false, reduceIte, Nat.zero_add]
      have hdiv : sizes.get ⟨i, hi⟩ / S * S / S = sizes.get ⟨i, hi⟩ / S :=
        Nat.mul_div_cancel _ hS
      have hmod : sizes.get ⟨i, hi⟩ / S * S % S = 0 := Nat.mul_mod_left _ _
      simp [writeToFile, hdiv, hmod]
      exact Or.inl hdiv

/-- Witness for C8 at `S = 4096`, direct I/O, `sizes = [5000, 4096, 100]`. -/
theorem cmdWriteBuckets_spec_witness :
    0 < 4096 ∧
    ((cmdWriteBuckets true 4096 [5000, 4096, 100]).length = 3 ∧
     ∀ i (hi : i < ([5000, 4096, 100] : List Nat).length),
      ((cmdWriteBuckets true 4096 [5000, 4096, 100]).get
          ⟨i, by rw [cmdWriteBuckets, cmdWriteBucketsAux_length]; exact hi⟩
        = if (true : Bool) = false then
            ((([5000, 4096, 100] : List Nat).take i).sum,
             ⟨([5000, 4096, 100] : List Nat).get ⟨i, hi⟩, false⟩)
          else
            (((([5000, 4096, 100] : List Nat).take i).map
                (fun s => roundUpToNextBoundary s 4096)).sum,
             ⟨([5000, 4096, 100] : List Nat).get ⟨i, hi⟩ / 4096 * 4096, false⟩))) :=
  ⟨by decide, cmdWriteBuckets_spec true 4096 [5000, 4096, 100] (by decide)⟩

/-! ## FxGenBucketized.cpp : the chunked generator's job setup (C9, C10) -/

/-- `BB_DP_BUCKET_COUNT`. Modelled from the spec: the constant's header is
    not in src; the bucket tags are 6 bits (`ASSERT( *ptr <= 0b111111 )`),
    giving 64 buckets. -/
def bbDpBucketCount : Nat := 64

/-- The file-block-size expression of `GenFxBucketizedChunked`
    (src/diskplot/jobs/FxGenBucketized.cpp line 123):
    `diskQueue ? 1ull : diskQueue->BlockSize()`.
    The condition tests the pointer itself, so a non-null queue yields
    `1` and a null queue evaluates `diskQueue->BlockSize()`, dereferencing
    null (modelled as `none`). -/
def chunkedFileBlockSize (diskQueue : Option Nat) : Option Nat :=
  match diskQueue with
  | some _ => some 1
  | none => none

/-- The `while( chunkTrailingEntries >= chunkCount )` loop of
    `GenFxBucketizedChunked` (lines 136-140) in uint32 arithmetic:
    each pass increments `chunkCount` and subtracts `entriesPerChunk`
    from `chunkTrailingEntries` (mod `2^32`). -/
def chunkCountLoop (epc : Nat) (cc t : Nat) : Nat × Nat :=
  if cc ≤ t % 2 ^ 32 then
    chunkCountLoop epc (cc + 1) ((t % 2 ^ 32 + (2 ^ 32 - epc % 2 ^ 32)) % 2 ^ 32)
  else (cc, t % 2 ^ 32)
termination_by 2 ^ 32 - cc
decreasing_by
  omega

/-- The per-job entry counts configured by the thread loops of
    `GenFxBucketizedChunked` (lines 150-196) and `GenFxBucketized`
    (lines 288-328): every job gets `entriesPerThread` entries and the
    first `trailing` jobs one extra
    (`if( threadTrailingEntries ) { job.entryCount++; threadTrailingEntries--; }`). -/
def jobEntryCounts (entriesPerThread trailing threadCount : Nat) : List Nat :=
  (List.range threadCount).map
    (fun i => if i < trailing then entriesPerThread + 1 else entriesPerThread)

/-- The values a `GenFxBucketizedChunked` call configures its jobs with. -/
structure ChunkedJobSetup where
  entryCounts          : List Nat
  entriesPerChunk      : Nat
  chunkCount           : Nat
  trailingChunkEntries : Nat
deriving DecidableEq

/-- Embeds the job-setup computation of `GenFxBucketizedChunked`
    (src/diskplot/jobs/FxGenBucketized.cpp lines 116-196).
    `sizePerEntry = sizeof(uint32) + sizeof(outMetaSizeA) + sizeof(outMetaSizeB)`
    is `4 + 8 + 8` (the operands are `size_t` variables).
    `none` models the null dereference in the file-block-size expression.
    Note the function configures an `MTJobRunner` but contains no
    `jobs.Run` call, so the configured jobs are never executed. -/
def genFxBucketizedChunkedJobs (diskQueue : Option Nat)
    (threadCount chunkSize : Nat) (directIo : Bool) (entryCount : Nat) :
    Option ChunkedJobSetup :=
  match chunkedFileBlockSize diskQueue with
  | none => none
  | some fileBlockSize =>
      let sizePerEntry := 4 + 8 + 8
      let bucketBlockAlignSize := fileBlockSize * bbDpBucketCount
      let usableChunkSize :=
        if directIo then chunkSize else chunkSize - bucketBlockAlignSize * 2
      let entriesPerChunk :=
        if chunkSize = 0 then entryCount else usableChunkSize / sizePerEntry % 2 ^ 32
      let chunkCount0 := entriesPerChunk / entryCount
      let trailing0 :=
        (entryCount + 2 ^ 32 - entriesPerChunk * chunkCount0 % 2 ^ 32) % 2 ^ 32
      let loopOut := chunkCountLoop entriesPerChunk chunkCount0 trailing0
      let entriesPerThread := entriesPerChunk / threadCount
      let threadTrailingEntries := entriesPerChunk - entriesPerThread * threadCount
      some ⟨jobEntryCounts entriesPerThread threadTrailingEntries threadCount,
            entriesPerChunk, loopOut.1, loopOut.2⟩

/-- Embeds `FxGenBucketized::GenerateFxBucketizedInMemory`
    (src/diskplot/jobs/FxGenBucketized.cpp lines 200-249): it forwards to
    `GenFxBucketizedChunked` with a null disk queue, chunk size 0 and
    direct I/O off. -/
def generateFxBucketizedInMemory (threadCount entryCount : Nat) :
    Option ChunkedJobSetup :=
  genFxBucketizedChunkedJobs none threadCount 0 false entryCount

/-- C9: for every call to the in-memory entry point, the chunked
    generator's job setup dereferences the null disk queue in its
    file-block-size expression (modelled `none`), so the T configured jobs
    are never executed and no input pair is processed — contradicting the
    claim that the jobs run and partition the `entryCount` input pairs.
    (The chunked path also never invokes `jobs.Run`, unlike the unchunked
    `GenFxBucketized`, so even a non-null queue would leave the configured
    jobs unexecuted.) -/
theorem genFxChunked_inMemory_crashes (threadCount entryCount : Nat) :
    generateFxBucketizedInMemory threadCount entryCount = none := rfl

/-- C10: the file-block-size expression
    `diskQueue ? 1ull : diskQueue->BlockSize()` has its arms inverted: a
    null queue (as passed by `GenerateFxBucketizedInMemory`) takes the
    else-branch and dereferences null, while a supplied queue yields the
    constant 1 rather than that queue's block size (`4096 ≠ 1` here). -/
theorem chunkedFileBlockSize_inverted :
    chunkedFileBlockSize none = none ∧
    (∀ blockSize, chunkedFileBlockSize (some blockSize) = some 1) ∧
    chunkedFileBlockSize (some 4096) ≠ some 4096 :=
  ⟨rfl, fun _ => rfl, by decide⟩

/-! ## FxGenBucketized.cpp : ComputeFxForTable (C2, C3)

The blake3 hash itself is an external library (`b3/blake3.h`, not part of
this repository's pipeline logic), so it is carried as an opaque function
`hash : List Nat → List Nat` from the packed input byte buffer to the
32 hash output bytes. `TableMetaIn/TableMetaOut` multipliers live in a
header not in src; the embedding is parameterized by the input and output
multipliers `mIn`/`mOut` (the source identifies the final table by
`metaKMultiplierOut == 0`). -/

/-- Little-endian u32 view of a u64 array, for the
    `reinterpret_cast<const uint32*>(...)` loads. -/
def u32At (l : List Nat) (j : Nat) : Nat :=
  l.getD (j / 2) 0 / 2 ^ (32 * (j % 2)) % 2 ^ 32

/-- Little-endian u32 store into a u64 array, for the
    `reinterpret_cast<uint32*>( metaOutB )[i] = ...` store. -/
def u32Set (l : List Nat) (j v : Nat) : List Nat :=
  let w := l.getD (j / 2) 0
  l.set (j / 2)
    (if j % 2 = 0 then w / 2 ^ 32 * 2 ^ 32 + v % 2 ^ 32
     else v % 2 ^ 32 * 2 ^ 32 + w % 2 ^ 32)

/-- `bufferSize = CDiv( ySize + metaSizeLR, 8 )` with `ySize = k + kExtraBits`
    and `metaSizeLR = 2 * k * metaKMultiplierIn`
    (src/diskplot/jobs/FxGenBucketized.cpp lines 482-486). -/
def fxBufferSize (mIn : Nat) : Nat :=
  cdiv (kParam + kExtraBits + kParam * mIn * 2) 8

/-- The `input[]` words of `ComputeFxForTable` before the `Swap64`
    (src/diskplot/jobs/FxGenBucketized.cpp lines 519-560), per input meta
    multiplier. `a << n | b` on disjoint bit ranges is written
    `a * 2^n % 2^64 + b` (the loads make every or-operand fit its range). -/
def fxInputWords (mIn y l0 l1 r0 r1 : Nat) : List Nat :=
  if mIn = 1 then
    [y * 2 ^ 26 % 2 ^ 64 + l0 / 2 ^ 6,
     l0 * 2 ^ 58 % 2 ^ 64 + r0 * 2 ^ 26 % 2 ^ 64]
  else if mIn = 2 then
    [y * 2 ^ 26 % 2 ^ 64 + l0 / 2 ^ 38,
     l0 * 2 ^ 26 % 2 ^ 64 + r0 / 2 ^ 38,
     r0 * 2 ^ 26 % 2 ^ 64]
  else if mIn = 3 then
    [y * 2 ^ 26 % 2 ^ 64 + l0 / 2 ^ 38,
     l0 * 2 ^ 26 % 2 ^ 64 + l1 / 2 ^ 6,
     l1 * 2 ^ 58 % 2 ^ 64 + r0 / 2 ^ 6,
     r0 * 2 ^ 58 % 2 ^ 64 + r1 * 2 ^ 26 % 2 ^ 64]
  else
    [y * 2 ^ 26 % 2 ^ 64 + l0 / 2 ^ 38,
     l0 * 2 ^ 26 % 2 ^ 64 + l1 / 2 ^ 38,
     l1 * 2 ^ 26 % 2 ^ 64 + r0 / 2 ^ 38,
     r0 * 2 ^ 26 % 2 ^ 64 + r1 / 2 ^ 38,
     r1 * 2 ^ 26 % 2 ^ 64]

/-- The bytes hashed by `blake3_hasher_update( &hasher, input, bufferSize )`:
    each `input[j]` is stored as `Swap64(w_j)` and the u64 sits in memory
    little-endian, so the buffer holds the big-endian bytes of each word,
    truncated to `bufferSize` bytes. -/
def fxInputBytes (mIn y l0 l1 r0 r1 : Nat) : List Nat :=
  (((fxInputWords mIn y l0 l1 r0 r1).map beBytes8).flatten).take (fxBufferSize mIn)

/-- `Swap64( output[j] )`: `blake3_hasher_finalize` writes 32 bytes;
    `output[j]` is the little-endian u64 load of bytes `8j..8j+7`, and the
    swap yields their big-endian value. -/
def hashWord (hs : List Nat) (j : Nat) : Nat :=
  beNat ((hs.drop (8 * j)).take 8)

/-- `fx = Swap64( *output ) >> yShift` with
    `yShift = 64 - (k + shiftBits)` and `shiftBits = 0` iff the output meta
    multiplier is 0 (the final table), else `kExtraBits`
    (src/diskplot/jobs/FxGenBucketized.cpp lines 480-483, 567). -/
def fxValue (hs : List Nat) (mOut : Nat) : Nat :=
  hashWord hs 0 / 2 ^ (64 - (kParam + (if mOut = 0 then 0 else kExtraBits)))

/-- The `(yOut[i], bucketOut[i])` pair stored per entry
    (src/diskplot/jobs/FxGenBucketized.cpp lines 563-583):
    `yOut[i] = (uint32)fx`; for the non-final tables
    `bucketOut[i] = (byte)( fx >> 32 )`, for the final table
    `bucketOut[i] = (byte)( ( fx >> 26 ) & 0b111111 )`. -/
def fxEntryStored (hash : List Nat → List Nat) (mIn mOut y l0 l1 r0 r1 : Nat) :
    Nat × Nat :=
  let hs := hash (fxInputBytes mIn y l0 l1 r0 r1)
  let fx := fxValue hs mOut
  (fx % 2 ^ 32, if mOut ≠ 0 then fx / 2 ^ 32 % 256 else fx / 2 ^ 26 % 64)

/-- `metaOutA` value `h0 << ySize | h1 >> 26` (ySize = 38). -/
def fxHashMetaA (hs : List Nat) : Nat :=
  hashWord hs 0 * 2 ^ 38 % 2 ^ 64 + hashWord hs 1 / 2 ^ 26

/-- `metaOutB` value `h1 << 38 | h2 >> 26` (the `metaKMultiplierOut == 4`
    hash branch). -/
def fxHashMetaB64 (hs : List Nat) : Nat :=
  hashWord hs 1 * 2 ^ 38 % 2 ^ 64 + hashWord hs 2 / 2 ^ 26

/-- `metaOutB` u32 value `(uint32)( ((h1 << 6) & 0xFFFFFFC0) | h2 >> 58 )`
    (the `metaKMultiplierOut == 3` branch): keeps bits 0..25 of h1 shifted
    up 6, ored with the top 6 bits of h2. -/
def fxHashMetaB32 (hs : List Nat) : Nat :=
  hashWord hs 1 % 2 ^ 26 * 2 ^ 6 + hashWord hs 2 / 2 ^ 58

/-- The output arrays written by `ComputeFxForTable`. -/
structure FxArrays where
  yOut      : List Nat
  bucketOut : List Nat
  metaOutA  : List Nat
  metaOutB  : List Nat
deriving DecidableEq

/-- One iteration of the entry loop of `ComputeFxForTable`
    (src/diskplot/jobs/FxGenBucketized.cpp lines 506-620): pair lookup,
    meta extraction (u32 loads for the multiplier-1 meta and the second
    multiplier-3 meta), `y = bucket | yIn[left]`, hash, y/bucket stores,
    and the meta-composition branches. Note the
    `metaKMultiplierOut == 2 && metaKMultiplierIn == 3` branch stores to
    `metaOutA[0]`, not `metaOutA[i]` (line 595). -/
def computeFxStep (hash : List Nat → List Nat) (mIn mOut bucket : Nat)
    (yIn metaInA metaInB pairsL pairsR : List Nat) (st : FxArrays) (i : Nat) :
    FxArrays :=
  let left := pairsL.getD i 0
  let right := left + pairsR.getD i 0
  let y := bucket ||| yIn.getD left 0
  let l0 := if mIn = 1 then u32At metaInA left else metaInA.getD left 0
  let r0 := if mIn = 1 then u32At metaInA right else metaInA.getD right 0
  let l1 := if mIn = 3 then u32At metaInB left else metaInB.getD left 0
  let r1 := if mIn = 3 then u32At metaInB right else metaInB.getD right 0
  let hs := hash (fxInputBytes mIn y l0 l1 r0 r1)
  let out := fxEntryStored hash mIn mOut y l0 l1 r0 r1
  let st1 : FxArrays :=
    ⟨st.yOut.set i out.1, st.bucketOut.set i out.2, st.metaOutA, st.metaOutB⟩
  if mOut = 2 ∧ mIn = 1 then
    { st1 with metaOutA := st1.metaOutA.set i (l0 * 2 ^ 32 % 2 ^ 64 + r0) }
  else if mOut = 2 ∧ mIn = 3 then
    { st1 with metaOutA := st1.metaOutA.set 0 (fxHashMetaA hs) }
  else if mOut = 3 then
    { st1 with metaOutA := st1.metaOutA.set i (fxHashMetaA hs),
               metaOutB := u32Set st1.metaOutB i (fxHashMetaB32 hs) }
  else if mOut = 4 ∧ mIn = 2 then
    { st1 with metaOutA := st1.metaOutA.set i l0,
               metaOutB := st1.metaOutB.set i r0 }
  else if mOut = 4 ∧ mIn ≠ 2 then
    { st1 with metaOutA := st1.metaOutA.set i (fxHashMetaA hs),
               metaOutB := st1.metaOutB.set i (fxHashMetaB64 hs) }
  else st1

/-- Embeds `ComputeFxForTable` (src/diskplot/jobs/FxGenBucketized.cpp
    lines 466-621): the entry loop over `i < entryCount`. -/
def computeFxForTable (hash : List Nat → List Nat) (mIn mOut bucket : Nat)
    (yIn metaInA metaInB pairsL pairsR : List Nat) (entryCount : Nat)
    (st : FxArrays) : FxArrays :=
  (List.range entryCount).foldl
    (computeFxStep hash mIn mOut bucket yIn metaInA metaInB pairsL pairsR) st

/-! ### C2: y' and the destination bucket are the top hash bits -/

theorem hashWord_zero_eq (hs : List Nat) (hlen : hs.length = 32)
    (hb : ∀ b ∈ hs, b < 256) : hashWord hs 0 = beNat hs / 2 ^ 192 := by
  have hsplit : hs.take 8 ++ hs.drop 8 = hs := List.take_append_drop 8 hs
  have hlen2 : (hs.drop 8).length = 24 := by rw [List.length_drop, hlen]
  have hrlt : beNat (hs.drop 8) < 2 ^ 192 := by
    have h := beNat_lt (hs.drop 8) (fun b hbm => hb b (List.drop_subset _ _ hbm))
    rw [hlen2] at h
    calc beNat (hs.drop 8) < 256 ^ 24 := h
      _ = 2 ^ 192 := by norm_num
  have hsum : beNat hs = 2 ^ 192 * beNat (hs.take 8) + beNat (hs.drop 8) := by
    conv_lhs => rw [← hsplit]
    rw [beNat_append, hlen2]
    have : (256 : Nat) ^ 24 = 2 ^ 192 := by norm_num
    rw [this]; ring
  rw [hsum, Nat.mul_add_div (by norm_num), Nat.div_eq_of_lt hrlt]
  simp [hashWord]

/-- C2: for every table, the per-entry stored values satisfy the top-bits
    rule: writing `H` for the big-endian value of the 256-bit blake3 hash
    of the packed `(y, metaL, metaR)` bit field, on the non-final tables
    (`mOut ≠ 0`) the split `(yOut, bucketOut)` store reassembles to
    `y' = H >> (256 - (k + kExtraBits))` — the top `k + kExtraBits` hash
    bits — with bucket `y' >> k`; on the final table (`mOut = 0`, table 7)
    `yOut = H >> (256 - k)` — the top `k` bits — and the bucket tag is
    `(y' >> 26) & 0b111111`. -/
theorem fx_y_bucket_top_bits (hash : List Nat → List Nat)
    (mIn mOut y l0 l1 r0 r1 : Nat)
    (hlen : (hash (fxInputBytes mIn y l0 l1 r0 r1)).length = 32)
    (hbytes : ∀ b ∈ hash (fxInputBytes mIn y l0 l1 r0 r1), b < 256) :
    (mOut ≠ 0 →
      (fxEntryStored hash mIn mOut y l0 l1 r0 r1).1
          + 2 ^ 32 * (fxEntryStored hash mIn mOut y l0 l1 r0 r1).2
        = beNat (hash (fxInputBytes mIn y l0 l1 r0 r1))
            / 2 ^ (256 - (kParam + kExtraBits)) ∧
      (fxEntryStored hash mIn mOut y l0 l1 r0 r1).2
        = beNat (hash (fxInputBytes mIn y l0 l1 r0 r1))
            / 2 ^ (256 - (kParam + kExtraBits)) / 2 ^ kParam) ∧
    (mOut = 0 →
      (fxEntryStored hash mIn mOut y l0 l1 r0 r1).1
        = beNat (hash (fxInputBytes mIn y l0 l1 r0 r1)) / 2 ^ (256 - kParam) ∧
      (fxEntryStored hash mIn mOut y l0 l1 r0 r1).2
        = beNat (hash (fxInputBytes mIn y l0 l1 r0 r1))
            / 2 ^ (256 - kParam) / 2 ^ 26 % 64) := by
  set hs := hash (fxInputBytes mIn y l0 l1 r0 r1) with hhs
  have hH : beNat hs < 2 ^ 256 := by
    have h := beNat_lt hs hbytes
    rw [hlen] at h
    calc beNat hs < 256 ^ 32 := h
      _ = 2 ^ 256 := by norm_num
  have h0 : hashWord hs 0 = beNat hs / 2 ^ 192 := hashWord_zero_eq hs hlen hbytes
  have hfe : fxEntryStored hash mIn mOut y l0 l1 r0 r1
      = (fxValue hs mOut % 2 ^ 32,
         if mOut ≠ 0 then fxValue hs mOut / 2 ^ 32 % 256
         else fxValue hs mOut / 2 ^ 26 % 64) := rfl
  constructor
  · intro hm
    have hfx : fxValue hs mOut = beNat hs / 2 ^ 218 := by
      unfold fxValue
      rw [if_neg hm, h0, Nat.div_div_eq_div_mul]
      norm_num [kParam, kExtraBits]
    have hlt : beNat hs / 2 ^ 218 < 2 ^ 38 := by
      rw [Nat.div_lt_iff_lt_mul (by positivity)]
      calc beNat hs < 2 ^ 256 := hH
        _ = 2 ^ 38 * 2 ^ 218 := by norm_num
    have hdivlt : beNat hs / 2 ^ 218 / 2 ^ 32 < 256 := by
      rw [Nat.div_div_eq_div_mul, Nat.div_lt_iff_lt_mul (by positivity)]
      calc beNat hs < 2 ^ 256 := hH
        _ ≤ 256 * (2 ^ 218 * 2 ^ 32) := by norm_num
    have h256 : (256 : Nat) - (kParam + kExtraBits) = 218 := by
      norm_num [kParam, kExtraBits]
    rw [hfe, hfx, h256]
    simp only [if_pos hm, kParam]
    rw [Nat.mod_eq_of_lt hdivlt]
    constructor
    · have := Nat.div_add_mod (beNat hs / 2 ^ 218) (2 ^ 32)
      omega
    · rfl
  · intro hm
    have hfx : fxValue hs mOut = beNat hs / 2 ^ 224 := by
      unfold fxValue
      rw [if_pos hm, h0, Nat.div_div_eq_div_mul]
      norm_num [kParam]
    have hlt : beNat hs / 2 ^ 224 < 2 ^ 32 := by
      rw [Nat.div_lt_iff_lt_mul (by positivity)]
      calc beNat hs < 2 ^ 256 := hH
        _ = 2 ^ 32 * 2 ^ 224 := by norm_num
    have h256 : (256 : Nat) - kParam = 224 := by norm_num [kParam]
    rw [hfe, hfx, h256]
    simp only [hm, ne_eq, not_true_eq_false, if_false]
    exact ⟨Nat.mod_eq_of_lt hlt, trivial⟩

/-- Witness for C2: a concrete 32-byte hash stub, `mIn = 1`, evaluated at
    both a non-final (`mOut = 2`) and the final (`mOut = 0`) table. -/
theorem fx_y_bucket_top_bits_witness :
    ((fun _ : List Nat => List.range 32) (fxInputBytes 1 5 1 0 2 0)).length = 32 ∧
    (∀ b ∈ (fun _ : List Nat => List.range 32) (fxInputBytes 1 5 1 0 2 0), b < 256) ∧
    (2 ≠ 0 →
      (fxEntryStored (fun _ => List.range 32) 1 2 5 1 0 2 0).1
          + 2 ^ 32 * (fxEntryStored (fun _ => List.range 32) 1 2 5 1 0 2 0).2
        = beNat ((fun _ : List Nat => List.range 32) (fxInputBytes 1 5 1 0 2 0))
            / 2 ^ (256 - (kParam + kExtraBits)) ∧
      (fxEntryStored (fun _ => List.range 32) 1 2 5 1 0 2 0).2
        = beNat ((fun _ : List Nat => List.range 32) (fxInputBytes 1 5 1 0 2 0))
            / 2 ^ (256 - (kParam + kExtraBits)) / 2 ^ kParam) :=
  ⟨by decide, by decide,
   fun h => ((fx_y_bucket_top_bits (fun _ => List.range 32) 1 2 5 1 0 2 0
      (by decide) (by decide)).1 h)⟩

/-! ### C3: the (in 3 / out 2) meta store lands at index 0, not index i -/

/-- A stub hash for evaluating the meta path at a concrete input: the
    32-byte output carries the first input byte in byte 8 (the h1 word), so
    distinct entries get distinct meta values. -/
def c3HashStub (bs : List Nat) : List Nat :=
  List.replicate 8 0 ++ [bs.headD 0] ++ List.replicate 23 0

/-- C3: evaluating `ComputeFxForTable` on the (meta in 3 / out 2) table
    with two pairs shows the `metaOutA[0] = h0 << ySize | h1 >> 26` store:
    pair 1's metadata (2^31 under `c3HashStub`) overwrites index 0 and
    index 1 still holds the initial sentinel 7 — the claim's per-index
    store `metaOutA[i]` would have produced `[0, 2^31]`. -/
theorem computeFx_meta_index_bug :
    (computeFxForTable c3HashStub 3 2 0 [0, 2 ^ 31] [0, 0] [0, 0] [0, 1] [0, 0] 2
        ⟨[0, 0], [0, 0], [7, 7], [0, 0]⟩).metaOutA = [2 ^ 31, 7] ∧
    ([2 ^ 31, 7] : List Nat) ≠ [0, 2 ^ 31] := by
  constructor
  · decide
  · decide

/-! ## FxGenBucketized.cpp : CalculatePrefixSum + DistributeIntoBuckets (C1, C4) -/

/-- The per-bucket counting loop of `FxBucketJob::DistributeIntoBuckets`
    (src/diskplot/jobs/FxGenBucketized.cpp lines 646-651): `counts[*ptr]++`
    over the entry bucket indices, starting from a zeroed array. -/
def bucketCountLoop : List Nat → (Nat → Nat) → (Nat → Nat)
  | [], f => f
  | b :: rest, f => bucketCountLoop rest (fun x => if x = b then f x + 1 else f x)

/-- A worker's per-bucket counts from its bucket-index array
    (`memset( counts, 0, ... )` then the counting loop). -/
def distributeCounts (l : List Nat) : Nat → Nat :=
  bucketCountLoop l (fun _ => 0)

/-- The summation loop of `FxBucketJob::CalculatePrefixSum`
    (lines 691-699): `pfxSum[j] = Σ_w GetJob(w).counts[j]` over all jobs. -/
def sumWorkerCounts (counts : Nat → Nat → Nat) (T : Nat) : Nat → Nat :=
  fun b => ∑ w ∈ Finset.range T, counts w b

/-- The block-alignment padding step (lines 715-745): the totals of buckets
    `0..B-2` are rounded up so `count * sizeof(uint32)` is a multiple of
    the file block size. -/
def paddedCounts (B fbs : Nat) (tot : Nat → Nat) : Nat → Nat :=
  fun b =>
    if fbs ≠ 0 ∧ b < B - 1
    then roundUpToNextBoundary (tot b * 4) fbs / 4
    else tot b

/-- `entryPadding[i] = pfxSum[i] - count` (line 726). -/
def entryPaddingOf (B fbs : Nat) (tot : Nat → Nat) : Nat → Nat :=
  fun b => paddedCounts B fbs tot b - tot b

/-- The in-place prefix-sum loop (lines 748-749): slot `b` ends up holding
    `Σ_{m ≤ b}` of the (padded) counts. -/
def pfxAccum (p : Nat → Nat) : Nat → Nat :=
  fun b => ∑ m ∈ Finset.range (b + 1), p m

/-- Embeds `FxBucketJob::CalculatePrefixSum` (lines 672-772) for worker
    `id` of `T` workers: sum all workers' counts, pad buckets `0..B-2` to
    the block boundary, prefix-sum, subtract the counts of the workers
    after `id` (lines 753-759), then subtract the padding again
    (lines 761-771). The uint32 subtractions never underflow in this
    pipeline (`calculatePrefixSum_eq` rebuilds the value additively), so
    Nat subtraction is exact. -/
def calculatePrefixSum (B T id fbs : Nat) (counts : Nat → Nat → Nat) :
    Nat → Nat :=
  fun b =>
    pfxAccum (paddedCounts B fbs (sumWorkerCounts counts T)) b
      - (∑ t ∈ Finset.Ico (id + 1) T, counts t b)
      - (if fbs ≠ 0 ∧ b < B - 1
         then entryPaddingOf B fbs (sumWorkerCounts counts T) b else 0)

/-- The per-bucket totals the control thread records
    (`memcpy( bucketCounts, pfxSum, ... )` at line 709): the summed counts,
    taken before the padding step. -/
def recordedBucketCounts (counts : Nat → Nat → Nat) (T : Nat) : Nat → Nat :=
  sumWorkerCounts counts T

/-- Base address (in entries) of bucket `b` inside a write batch: the sum
    of the padded sizes of the earlier buckets. -/
def bucketBase (B fbs : Nat) (tot : Nat → Nat) (b : Nat) : Nat :=
  ∑ m ∈ Finset.range b, paddedCounts B fbs tot m

/-- The scatter loop of `FxBucketJob::DistributeIntoBuckets`
    (lines 656-668): `dstIdx = --pfxSum[bucketIndices[i]]`; returns each
    entry's destination index, in entry order. -/
def scatterDsts : List Nat → (Nat → Nat) → List Nat
  | [], _ => []
  | b :: rest, pfx =>
      (pfx b - 1) :: scatterDsts rest (fun x => if x = b then pfx b - 1 else pfx x)

theorem bucketCountLoop_eq : ∀ (l : List Nat) (f : Nat → Nat) (b : Nat),
    bucketCountLoop l f b = f b + l.count b := by
  intro l
  induction l with
  | nil => intro f b; simp [bucketCountLoop]
  | cons a rest ih =>
      intro f b
      rw [bucketCountLoop, ih]
      by_cases hab : b = a
      · subst hab
        simp [List.count_cons]
        omega
      · simp [List.count_cons, hab, Ne.symm hab]

theorem distributeCounts_eq (l : List Nat) (b : Nat) :
    distributeCounts l b = l.count b := by
  rw [distributeCounts, bucketCountLoop_eq]
  omega

theorem le_roundUpToNextBoundary (x f : Nat) (hf : 0 < f) :
    x ≤ roundUpToNextBoundary x f := by
  unfold roundUpToNextBoundary
  have h1 := Nat.div_add_mod (x + f - 1) f
  have h2 := Nat.mod_lt (x + f - 1) hf
  have h3 : (x + f - 1) / f * f = f * ((x + f - 1) / f) := Nat.mul_comm _ _
  omega

theorem paddedCounts_ge (B fbs : Nat) (tot : Nat → Nat) (b : Nat) :
    tot b ≤ paddedCounts B fbs tot b := by
  unfold paddedCounts
  by_cases h : fbs ≠ 0 ∧ b < B - 1
  · rw [if_pos h]
    have hf : 0 < fbs := Nat.pos_of_ne_zero h.1
    have h1 : tot b * 4 ≤ roundUpToNextBoundary (tot b * 4) fbs :=
      le_roundUpToNextBoundary _ _ hf
    have h2 : tot b * 4 / 4 ≤ roundUpToNextBoundary (tot b * 4) fbs / 4 :=
      Nat.div_le_div_right h1
    simpa using h2
  · rw [if_neg h]

/-- The closed form of the per-worker prefix sums: worker `id`'s slot for
    bucket `b` is the bucket's (padded) base plus the counts of workers
    `0..id` for that bucket. -/
theorem calculatePrefixSum_eq (B T id fbs : Nat) (counts : Nat → Nat → Nat)
    (hid : id < T) (b : Nat) :
    calculatePrefixSum B T id fbs counts b
      = bucketBase B fbs (sumWorkerCounts counts T) b
        + ∑ t ∈ Finset.range (id + 1), counts t b := by
  set tot := sumWorkerCounts counts T with htot
  have hacc : pfxAccum (paddedCounts B fbs tot) b
      = bucketBase B fbs tot b + paddedCounts B fbs tot b := by
    rw [pfxAccum, bucketBase, Finset.sum_range_succ]
  have hsplit : (∑ t ∈ Finset.range (id + 1), counts t b)
      + (∑ t ∈ Finset.Ico (id + 1) T, counts t b) = tot b := by
    rw [htot, sumWorkerCounts]
    exact Finset.sum_range_add_sum_Ico _ (by omega)
  have hge := paddedCounts_ge B fbs tot b
  have hpad : (if fbs ≠ 0 ∧ b < B - 1
      then entryPaddingOf B fbs tot b else 0)
      = paddedCounts B fbs tot b - tot b := by
    by_cases h : fbs ≠ 0 ∧ b < B - 1
    · rw [if_pos h, entryPaddingOf]
    · rw [if_neg h]
      have : paddedCounts B fbs tot b = tot b := by
        unfold paddedCounts
        rw [if_neg h]
      omega
  rw [calculatePrefixSum, hacc, hpad]
  omega

theorem scatterDsts_length : ∀ (l : List Nat) (pfx : Nat → Nat),
    (scatterDsts l pfx).length = l.length := by
  intro l
  induction l with
  | nil => intro pfx; rfl
  | cons b rest ih => intro pfx; simp [scatterDsts, ih]

/-- Each scattered destination in closed form: entry `i` with bucket
    `b = l[i]` lands at `pfx b - 1 - (occurrences of b before i)`. -/
theorem scatterDsts_get : ∀ (l : List Nat) (pfx : Nat → Nat) i (h : i < l.length),
    (scatterDsts l pfx).get ⟨i, by rw [scatterDsts_length]; exact h⟩
      = pfx (l.get ⟨i, h⟩) - 1 - (l.take i).count (l.get ⟨i, h⟩) := by
  intro l
  induction l with
  | nil => intro pfx i h; simp at h
  | cons a rest ih =>
      intro pfx i h
      match i with
      | 0 => simp [scatterDsts]
      | i + 1 =>
          have h' : i < rest.length := by simpa using h
          simp only [scatterDsts, List.get_cons_succ, List.take_succ_cons]
          rw [ih _ i h']
          by_cases hb : rest.get ⟨i, h'⟩ = a
          · rw [hb, if_pos rfl]
            simp only [List.count_cons_self]
            omega
          · rw [if_neg hb]
            show pfx (rest.get ⟨i, h'⟩) - 1 - List.count (rest.get ⟨i, h'⟩) (List.take i rest)
              = pfx (rest.get ⟨i, h'⟩) - 1 - List.count (rest.get ⟨i, h'⟩) (a :: List.take i rest)
            rw [List.count_cons_of_ne hb]

/-- For every occurrence rank `p` below the count of `b` there is an entry
    position whose earlier occurrences of `b` number exactly `p`. -/
theorem exists_take_count : ∀ (l : List Nat) (b p : Nat), p < l.count b →
    ∃ i, ∃ (h : i < l.length), l.get ⟨i, h⟩ = b ∧ (l.take i).count b = p := by
  intro l
  induction l with
  | nil => intro b p hp; simp [List.count_nil] at hp
  | cons a rest ih =>
      intro b p hp
      by_cases hab : a = b
      · subst hab
        match p with
        | 0 => exact ⟨0, by simp, rfl, by simp⟩
        | p + 1 =>
            have hp' : p < rest.count a := by
              rw [List.count_cons_self] at hp
              omega
            obtain ⟨i, hi, hget, hcnt⟩ := ih a p hp'
            exact ⟨i + 1, by simpa using hi, by simpa using hget,
              by simp [List.count_cons_self, hcnt]⟩
      · have hp' : p < rest.count b := by
          rwa [List.count_cons_of_ne (fun he => hab he.symm)] at hp
        obtain ⟨i, hi, hget, hcnt⟩ := ih b p hp'
        refine ⟨i + 1, by simpa using hi, by simpa using hget, ?_⟩
        simpa [List.count_cons_of_ne (fun he => hab he.symm)] using hcnt

/-- Position of a value inside a nondecreasing partition of partial sums:
    any `v` below the total falls in exactly one worker's span. -/
theorem exists_range_between (f : Nat → Nat) (T v : Nat)
    (hv : v < ∑ t ∈ Finset.range T, f t) :
    ∃ id, id < T ∧ (∑ t ∈ Finset.range id, f t) ≤ v
      ∧ v < ∑ t ∈ Finset.range (id + 1), f t := by
  induction T with
  | zero => simp at hv
  | succ T ih =>
      by_cases h : v < ∑ t ∈ Finset.range T, f t
      · obtain ⟨id, hid, hlo, hhi⟩ := ih h
        exact ⟨id, by omega, hlo, hhi⟩
      · rw [Finset.sum_range_succ] at hv
        exact ⟨T, by omega, by omega, by rw [Finset.sum_range_succ]; omega⟩

/-! ### The run of the bucket distributor across T workers

`ls` lists, per worker id, the bucket index (`bucketIndices`) of each of
that worker's input entries, in entry order. -/

/-- Worker `w`'s per-bucket counts, as computed by its counting loop. -/
def workerCounts (ls : List (List Nat)) : Nat → Nat → Nat :=
  fun w b => distributeCounts (ls.getD w []) b

/-- The global per-bucket totals of the run. -/
def fxBucketTotals (ls : List (List Nat)) : Nat → Nat :=
  sumWorkerCounts (workerCounts ls) ls.length

/-- Bucket `b`'s base address within the batch (sum of padded totals of
    earlier buckets). -/
def fxBucketBase (fbs : Nat) (ls : List (List Nat)) (b : Nat) : Nat :=
  bucketBase bbDpBucketCount fbs (fxBucketTotals ls) b

/-- Worker `id`'s prefix-sum array after `CalculatePrefixSum`. -/
def workerPfxSum (fbs : Nat) (ls : List (List Nat)) (id : Nat) : Nat → Nat :=
  calculatePrefixSum bbDpBucketCount ls.length id fbs (workerCounts ls)

/-- Worker `id`'s scatter destinations, in entry order. -/
def workerDsts (fbs : Nat) (ls : List (List Nat)) (id : Nat) : List Nat :=
  scatterDsts (ls.getD id []) (workerPfxSum fbs ls id)

/-- Entries of bucket `b` owned by workers before `id`. -/
def countsBefore (ls : List (List Nat)) (id b : Nat) : Nat :=
  ∑ t ∈ Finset.range id, workerCounts ls t b

/-- Entries of bucket `b` owned by workers up to and including `id`. -/
def countsUpTo (ls : List (List Nat)) (id b : Nat) : Nat :=
  ∑ t ∈ Finset.range (id + 1), workerCounts ls t b

theorem count_take_mono (l : List Nat) (b : Nat) {i j : Nat} (hij : i ≤ j) :
    (l.take i).count b ≤ (l.take j).count b := by
  have hsub : List.Sublist (l.take i) (l.take j) := by
    have h1 : l.take i = (l.take j).take i := by
      rw [List.take_take, Nat.min_eq_left hij]
    rw [h1]
    exact List.take_sublist _ _
  exact hsub.count_le b

theorem count_take_succ (l : List Nat) (i : Nat) (h : i < l.length) :
    (l.take (i + 1)).count (l.get ⟨i, h⟩)
      = (l.take i).count (l.get ⟨i, h⟩) + 1 := by
  rw [List.take_succ, List.getElem?_eq_getElem h]
  show List.count (l.get ⟨i, h⟩) (List.take i l ++ [l.get ⟨i, h⟩])
      = List.count (l.get ⟨i, h⟩) (List.take i l) + 1
  rw [List.count_append]
  simp

theorem count_take_lt (l : List Nat) (i : Nat) (h : i < l.length) :
    (l.take i).count (l.get ⟨i, h⟩) < l.count (l.get ⟨i, h⟩) := by
  have h1 := count_take_succ l i h
  have h2 : (l.take (i + 1)).count (l.get ⟨i, h⟩) ≤ l.count (l.get ⟨i, h⟩) :=
    (List.take_sublist _ _).count_le _
  omega

theorem countsUpTo_eq (ls : List (List Nat)) (id b : Nat) :
    countsUpTo ls id b = countsBefore ls id b + workerCounts ls id b := by
  rw [countsUpTo, countsBefore, Finset.sum_range_succ]

theorem countsUpTo_le_totals (ls : List (List Nat)) {id : Nat} (b : Nat)
    (hid : id < ls.length) :
    countsUpTo ls id b ≤ fxBucketTotals ls b := by
  rw [countsUpTo, fxBucketTotals, sumWorkerCounts]
  exact Finset.sum_le_sum_of_subset
    (Finset.range_subset.mpr (by omega))

theorem countsUpTo_le_countsBefore (ls : List (List Nat)) {id id' : Nat}
    (b : Nat) (h : id < id') :
    countsUpTo ls id b ≤ countsBefore ls id' b := by
  rw [countsUpTo, countsBefore]
  exact Finset.sum_le_sum_of_subset
    (Finset.range_subset.mpr (by omega))

theorem fxBucketBase_succ (fbs : Nat) (ls : List (List Nat)) (b : Nat) :
    fxBucketBase fbs ls b + fxBucketTotals ls b ≤ fxBucketBase fbs ls (b + 1) := by
  rw [fxBucketBase, fxBucketBase, bucketBase, bucketBase, Finset.sum_range_succ]
  have := paddedCounts_ge bbDpBucketCount fbs (fxBucketTotals ls) b
  omega

theorem fxBucketBase_mono (fbs : Nat) (ls : List (List Nat)) {b b' : Nat}
    (h : b ≤ b') :
    fxBucketBase fbs ls b ≤ fxBucketBase fbs ls b' := by
  rw [fxBucketBase, fxBucketBase, bucketBase, bucketBase]
  exact Finset.sum_le_sum_of_subset (Finset.range_subset.mpr h)

theorem fxBucketRange_disjoint (fbs : Nat) (ls : List (List Nat)) {b b' : Nat}
    (h : b < b') :
    fxBucketBase fbs ls b + fxBucketTotals ls b ≤ fxBucketBase fbs ls b' :=
  le_trans (fxBucketBase_succ fbs ls b) (fxBucketBase_mono fbs ls h)

/-- Destination formula: worker `id`'s entry `i`, with bucket `b = l[i]`
    seen `p` times before position `i`, is scattered to
    `bucketBase b + countsUpTo id b - 1 - p`, and `p` is below the worker's
    count for `b`. -/
theorem workerDsts_formula (fbs : Nat) (ls : List (List Nat)) (id : Nat)
    (hid : id < ls.length) (i : Nat) (hi : i < (ls.getD id []).length) :
    (workerDsts fbs ls id).getD i 0
      = fxBucketBase fbs ls ((ls.getD id []).get ⟨i, hi⟩)
          + countsUpTo ls id ((ls.getD id []).get ⟨i, hi⟩) - 1
          - ((ls.getD id []).take i).count ((ls.getD id []).get ⟨i, hi⟩)
    ∧ ((ls.getD id []).take i).count ((ls.getD id []).get ⟨i, hi⟩)
        < workerCounts ls id ((ls.getD id []).get ⟨i, hi⟩) := by
  set l := ls.getD id [] with hl
  have hlen : i < (workerDsts fbs ls id).length := by
    rw [workerDsts, scatterDsts_length]; exact hi
  have hgd : (workerDsts fbs ls id).getD i 0 = (workerDsts fbs ls id).get ⟨i, hlen⟩ :=
    List.getD_eq_getElem _ _ hlen
  have hsc := scatterDsts_get l (workerPfxSum fbs ls id) i hi
  have hpfx : workerPfxSum fbs ls id (l.get ⟨i, hi⟩)
      = fxBucketBase fbs ls (l.get ⟨i, hi⟩) + countsUpTo ls id (l.get ⟨i, hi⟩) := by
    rw [workerPfxSum, calculatePrefixSum_eq _ _ _ _ _ hid]
    rfl
  have hcnt : ((l.take i).count (l.get ⟨i, hi⟩)) < workerCounts ls id (l.get ⟨i, hi⟩) := by
    rw [workerCounts, distributeCounts_eq, ← hl]
    exact count_take_lt l i hi
  constructor
  · rw [hgd]
    refine hsc.trans ?_
    rw [hpfx]
  · exact hcnt

/-- Worker `id`'s destinations for bucket `b` are exactly the contiguous
    window `[base b + countsBefore id b, base b + countsUpTo id b)`. -/
theorem workerDsts_mem_iff (fbs : Nat) (ls : List (List Nat)) (id : Nat)
    (hid : id < ls.length) (b d : Nat) :
    (∃ i, ∃ (hi : i < (ls.getD id []).length),
        (ls.getD id []).get ⟨i, hi⟩ = b ∧ (workerDsts fbs ls id).getD i 0 = d)
    ↔ (fxBucketBase fbs ls b + countsBefore ls id b ≤ d
        ∧ d < fxBucketBase fbs ls b + countsUpTo ls id b) := by
  constructor
  · rintro ⟨i, hi, hb, hd⟩
    obtain ⟨hform, hcnt⟩ := workerDsts_formula fbs ls id hid i hi
    rw [hb] at hform hcnt
    have hsplit := countsUpTo_eq ls id b
    omega
  · rintro ⟨hlo, hhi⟩
    have hsplit := countsUpTo_eq ls id b
    have hcntpos : 0 < workerCounts ls id b := by omega
    set p := fxBucketBase fbs ls b + countsUpTo ls id b - 1 - d with hp
    have hplt : p < workerCounts ls id b := by omega
    have hplt' : p < (ls.getD id []).count b := by
      rwa [workerCounts, distributeCounts_eq] at hplt
    obtain ⟨i, hi, hget, hpcnt⟩ := exists_take_count (ls.getD id []) b p hplt'
    refine ⟨i, hi, hget, ?_⟩
    obtain ⟨hform, hcnt⟩ := workerDsts_formula fbs ls id hid i hi
    rw [hget] at hform hcnt
    omega

/-- A destination index identifies its worker and bucket: the per-worker
    per-bucket windows are pairwise disjoint. -/
theorem windows_disjoint (fbs : Nat) (ls : List (List Nat)) {id1 id2 b1 b2 d : Nat}
    (h1T : id1 < ls.length) (h2T : id2 < ls.length)
    (h1 : fxBucketBase fbs ls b1 + countsBefore ls id1 b1 ≤ d
        ∧ d < fxBucketBase fbs ls b1 + countsUpTo ls id1 b1)
    (h2 : fxBucketBase fbs ls b2 + countsBefore ls id2 b2 ≤ d
        ∧ d < fxBucketBase fbs ls b2 + countsUpTo ls id2 b2) :
    b1 = b2 ∧ id1 = id2 := by
  have hbeq : b1 = b2 := by
    rcases Nat.lt_trichotomy b1 b2 with hlt | he | hgt
    · exfalso
      have ha := countsUpTo_le_totals ls b1 h1T
      have hb := fxBucketRange_disjoint fbs ls hlt
      have hc : fxBucketBase fbs ls b2 ≤ d := by omega
      omega
    · exact he
    · exfalso
      have ha := countsUpTo_le_totals ls b2 h2T
      have hb := fxBucketRange_disjoint fbs ls hgt
      omega
  subst hbeq
  refine ⟨rfl, ?_⟩
  rcases Nat.lt_trichotomy id1 id2 with hlt | he | hgt
  · exfalso
    have := countsUpTo_le_countsBefore ls b1 hlt
    omega
  · exact he
  · exfalso
    have := countsUpTo_le_countsBefore ls b1 hgt
    omega

/-- C1: in a run of the bucket distributor over the workers' bucket-index
    streams `ls` (all indices in range, as asserted by the code):
    (1) the scatter loop assigns every input entry, across all workers, a
    distinct destination index;
    (2) the prefix-sum start offsets give each worker a disjoint,
    contiguous write window within each bucket: worker id's bucket-b
    destinations are exactly
    `[base b + countsBefore id b, base b + countsUpTo id b)`;
    (3) each bucket's entries together occupy exactly the contiguous region
    `[base b, base b + total b)`, i.e. they start at the very beginning of
    the bucket's region even when padding was added;
    (4) when `fileBlockSize > 0` (and entries are 4-byte words evenly
    dividing the block size), every bucket's base byte address is
    block-aligned: the padding added to bucket totals is subtracted from
    the computed starts. -/
theorem fx_scatter_disjoint_contiguous (fbs : Nat) (ls : List (List Nat))
    (hB : ∀ l ∈ ls, ∀ x ∈ l, x < bbDpBucketCount) :
    (∀ id1 id2 i1 i2 (h1 : id1 < ls.length) (h2 : id2 < ls.length)
       (hi1 : i1 < (ls.getD id1 []).length) (hi2 : i2 < (ls.getD id2 []).length),
       (id1, i1) ≠ (id2, i2) →
       (workerDsts fbs ls id1).getD i1 0 ≠ (workerDsts fbs ls id2).getD i2 0) ∧
    (∀ id (hid : id < ls.length) (b d : Nat),
       (∃ i, ∃ (hi : i < (ls.getD id []).length),
           (ls.getD id []).get ⟨i, hi⟩ = b ∧ (workerDsts fbs ls id).getD i 0 = d)
       ↔ (fxBucketBase fbs ls b + countsBefore ls id b ≤ d
           ∧ d < fxBucketBase fbs ls b + countsUpTo ls id b)) ∧
    (∀ b d : Nat,
       (∃ id, ∃ (hid : id < ls.length), ∃ i, ∃ (hi : i < (ls.getD id []).length),
           (ls.getD id []).get ⟨i, hi⟩ = b ∧ (workerDsts fbs ls id).getD i 0 = d)
       ↔ (fxBucketBase fbs ls b ≤ d
           ∧ d < fxBucketBase fbs ls b + fxBucketTotals ls b)) ∧
    (fbs ≠ 0 → 4 ∣ fbs → ∀ b < bbDpBucketCount,
       fbs ∣ fxBucketBase fbs ls b * 4) := by
  refine ⟨?_, ?_, ?_, ?_⟩
  · -- (1) globally distinct destinations
    intro id1 id2 i1 i2 h1 h2 hi1 hi2 hne heq
    have hw1 := (workerDsts_mem_iff fbs ls id1 h1 ((ls.getD id1 []).get ⟨i1, hi1⟩)
        ((workerDsts fbs ls id1).getD i1 0)).mp ⟨i1, hi1, rfl, rfl⟩
    have hw2 := (workerDsts_mem_iff fbs ls id2 h2 ((ls.getD id2 []).get ⟨i2, hi2⟩)
        ((workerDsts fbs ls id2).getD i2 0)).mp ⟨i2, hi2, rfl, rfl⟩
    rw [heq] at hw1
    obtain ⟨hbeq, hideq⟩ := windows_disjoint fbs ls h1 h2 hw1 hw2
    subst hideq
    have hine : i1 ≠ i2 := fun hcc => hne (by rw [hcc])
    obtain ⟨hf1, hc1⟩ := workerDsts_formula fbs ls id1 h1 i1 hi1
    obtain ⟨hf2, hc2⟩ := workerDsts_formula fbs ls id1 h1 i2 hi2
    rw [hbeq] at hf1 hc1
    rw [heq] at hf1
    have hcle : workerCounts ls id1 ((ls.getD id1 []).get ⟨i2, hi2⟩)
        ≤ countsUpTo ls id1 ((ls.getD id1 []).get ⟨i2, hi2⟩) := by
      rw [countsUpTo_eq]; omega
    rcases Nat.lt_trichotomy i1 i2 with hlt | he | hgt
    · have hstep : ((ls.getD id1 []).take (i1 + 1)).count ((ls.getD id1 []).get ⟨i2, hi2⟩)
          = ((ls.getD id1 []).take i1).count ((ls.getD id1 []).get ⟨i2, hi2⟩) + 1 := by
        rw [← hbeq]
        exact count_take_succ _ i1 hi1
      have hmono := count_take_mono (ls.getD id1 [])
        ((ls.getD id1 []).get ⟨i2, hi2⟩) (show i1 + 1 ≤ i2 by omega)
      omega
    · exact hine he
    · have hstep : ((ls.getD id1 []).take (i2 + 1)).count ((ls.getD id1 []).get ⟨i2, hi2⟩)
          = ((ls.getD id1 []).take i2).count ((ls.getD id1 []).get ⟨i2, hi2⟩) + 1 :=
        count_take_succ _ i2 hi2
      have hmono := count_take_mono (ls.getD id1 [])
        ((ls.getD id1 []).get ⟨i2, hi2⟩) (show i2 + 1 ≤ i1 by omega)
      omega
  · -- (2) per-worker windows
    intro id hid b d
    exact workerDsts_mem_iff fbs ls id hid b d
  · -- (3) full bucket coverage
    intro b d
    constructor
    · rintro ⟨id, hid, i, hi, hb, hd⟩
      have hw := (workerDsts_mem_iff fbs ls id hid b d).mp ⟨i, hi, hb, hd⟩
      have ha := countsUpTo_le_totals ls b hid
      omega
    · rintro ⟨hlo, hhi⟩
      have hvt : d - fxBucketBase fbs ls b
          < ∑ t ∈ Finset.range ls.length, workerCounts ls t b := by
        have : fxBucketTotals ls b = ∑ t ∈ Finset.range ls.length, workerCounts ls t b := rfl
        omega
      obtain ⟨id, hid, hlo', hhi'⟩ :=
        exists_range_between (fun t => workerCounts ls t b) ls.length
          (d - fxBucketBase fbs ls b) hvt
      obtain ⟨i, hi, hb, hd⟩ := (workerDsts_mem_iff fbs ls id hid b d).mpr
        (by constructor
            · show fxBucketBase fbs ls b + countsBefore ls id b ≤ d
              rw [countsBefore]; omega
            · show d < fxBucketBase fbs ls b + countsUpTo ls id b
              rw [countsUpTo]; omega)
      exact ⟨id, hid, i, hi, hb, hd⟩
  · -- (4) block alignment of every bucket base
    intro hfbs h4 b hb
    rw [fxBucketBase, bucketBase, Finset.sum_mul]
    refine Finset.dvd_sum ?_
    intro m hm
    have hmB : m < bbDpBucketCount - 1 := by
      have := Finset.mem_range.mp hm
      simp only [bbDpBucketCount] at hb ⊢
      omega
    rw [paddedCounts, if_pos ⟨hfbs, hmB⟩]
    have h4r : 4 ∣ roundUpToNextBoundary (fxBucketTotals ls m * 4) fbs := by
      refine dvd_trans h4 ?_
      rw [roundUpToNextBoundary]
      exact Dvd.intro_left _ rfl
    rw [Nat.div_mul_cancel h4r]
    rw [roundUpToNextBoundary]
    exact Dvd.intro_left _ rfl

/-- Witness for C1: two workers, `fileBlockSize = 8`, concrete bucket
    streams. -/
theorem fx_scatter_disjoint_contiguous_witness :
    (∀ l ∈ [[0, 1, 0], [1, 2, 63]], ∀ x ∈ l, x < bbDpBucketCount) ∧
    ((∀ id1 id2 i1 i2 (h1 : id1 < ([[0, 1, 0], [1, 2, 63]] : List (List Nat)).length)
        (h2 : id2 < ([[0, 1, 0], [1, 2, 63]] : List (List Nat)).length)
        (hi1 : i1 < (([[0, 1, 0], [1, 2, 63]] : List (List Nat)).getD id1 []).length)
        (hi2 : i2 < (([[0, 1, 0], [1, 2, 63]] : List (List Nat)).getD id2 []).length),
        (id1, i1) ≠ (id2, i2) →
        (workerDsts 8 [[0, 1, 0], [1, 2, 63]] id1).getD i1 0
          ≠ (workerDsts 8 [[0, 1, 0], [1, 2, 63]] id2).getD i2 0) ∧
     (∀ id (hid : id < ([[0, 1, 0], [1, 2, 63]] : List (List Nat)).length) (b d : Nat),
        (∃ i, ∃ (hi : i < (([[0, 1, 0], [1, 2, 63]] : List (List Nat)).getD id []).length),
            (([[0, 1, 0], [1, 2, 63]] : List (List Nat)).getD id []).get ⟨i, hi⟩ = b
              ∧ (workerDsts 8 [[0, 1, 0], [1, 2, 63]] id).getD i 0 = d)
        ↔ (fxBucketBase 8 [[0, 1, 0], [1, 2, 63]] b
              + countsBefore [[0, 1, 0], [1, 2, 63]] id b ≤ d
            ∧ d < fxBucketBase 8 [[0, 1, 0], [1, 2, 63]] b
              + countsUpTo [[0, 1, 0], [1, 2, 63]] id b)) ∧
     (∀ b d : Nat,
        (∃ id, ∃ (hid : id < ([[0, 1, 0], [1, 2, 63]] : List (List Nat)).length),
         ∃ i, ∃ (hi : i < (([[0, 1, 0], [1, 2, 63]] : List (List Nat)).getD id []).length),
            (([[0, 1, 0], [1, 2, 63]] : List (List Nat)).getD id []).get ⟨i, hi⟩ = b
              ∧ (workerDsts 8 [[0, 1, 0], [1, 2, 63]] id).getD i 0 = d)
        ↔ (fxBucketBase 8 [[0, 1, 0], [1, 2, 63]] b ≤ d
            ∧ d < fxBucketBase 8 [[0, 1, 0], [1, 2, 63]] b
              + fxBucketTotals [[0, 1, 0], [1, 2, 63]] b)) ∧
     ((8 : Nat) ≠ 0 → 4 ∣ 8 → ∀ b < bbDpBucketCount,
        8 ∣ fxBucketBase 8 [[0, 1, 0], [1, 2, 63]] b * 4)) :=
  ⟨by decide, fx_scatter_disjoint_contiguous 8 [[0, 1, 0], [1, 2, 63]] (by decide)⟩

/-! ### C4: conservation of counts -/

theorem sum_count_eq_length (l : List Nat) (B : Nat) (hB : ∀ x ∈ l, x < B) :
    ∑ b ∈ Finset.range B, l.count b = l.length := by
  induction l with
  | nil => simp
  | cons a rest ih =>
      have ha : a ∈ Finset.range B := Finset.mem_range.mpr (hB a (by simp))
      have hsum : ∀ b ∈ Finset.range B,
          List.count b (a :: rest) = List.count b rest + if b = a then 1 else 0 := by
        intro b _
        by_cases hba : b = a
        · subst hba; simp [List.count_cons]
        · simp [List.count_cons, hba]
      rw [Finset.sum_congr rfl hsum, Finset.sum_add_distrib,
        ih (fun x hx => hB x (by simp [hx])), Finset.sum_ite_eq' (Finset.range B) a fun _ => 1,
        if_pos ha]
      simp

/-- C4: the global per-bucket count recorded by the control thread equals
    the sum over workers of that worker's per-bucket counts, and, with all
    bucket indices in range (as the code asserts), the global counts sum to
    the stage's input entry count — every input entry is counted once. -/
theorem fx_count_conservation (ls : List (List Nat))
    (hB : ∀ l ∈ ls, ∀ x ∈ l, x < bbDpBucketCount) :
    (∀ b, recordedBucketCounts (workerCounts ls) ls.length b
        = ∑ w ∈ Finset.range ls.length, (ls.getD w []).count b) ∧
    (∑ b ∈ Finset.range bbDpBucketCount,
        recordedBucketCounts (workerCounts ls) ls.length b
      = ∑ w ∈ Finset.range ls.length, (ls.getD w []).length) := by
  have hrec : ∀ b, recordedBucketCounts (workerCounts ls) ls.length b
      = ∑ w ∈ Finset.range ls.length, (ls.getD w []).count b := by
    intro b
    rw [recordedBucketCounts, sumWorkerCounts]
    refine Finset.sum_congr rfl ?_
    intro w _
    rw [workerCounts, distributeCounts_eq]
  refine ⟨hrec, ?_⟩
  calc ∑ b ∈ Finset.range bbDpBucketCount,
        recordedBucketCounts (workerCounts ls) ls.length b
      = ∑ b ∈ Finset.range bbDpBucketCount,
          ∑ w ∈ Finset.range ls.length, (ls.getD w []).count b :=
        Finset.sum_congr rfl (fun b _ => hrec b)
    _ = ∑ w ∈ Finset.range ls.length,
          ∑ b ∈ Finset.range bbDpBucketCount, (ls.getD w []).count b :=
        Finset.sum_comm
    _ = ∑ w ∈ Finset.range ls.length, (ls.getD w []).length := by
        refine Finset.sum_congr rfl ?_
        intro w hw
        refine sum_count_eq_length _ _ ?_
        intro x hx
        have hmem : ls.getD w [] ∈ ls := by
          rw [List.getD_eq_getElem ls [] (Finset.mem_range.mp hw)]
          exact List.getElem_mem _
        exact hB (ls.getD w []) hmem x hx

/-- Witness for C4: two workers with concrete bucket streams. -/
theorem fx_count_conservation_witness :
    (∀ l ∈ [[0, 1, 0], [1, 2, 63]], ∀ x ∈ l, x < bbDpBucketCount) ∧
    ((∀ b, recordedBucketCounts (workerCounts [[0, 1, 0], [1, 2, 63]]) 2 b
        = ∑ w ∈ Finset.range 2, (([[0, 1, 0], [1, 2, 63]] : List (List Nat)).getD w []).count b) ∧
     (∑ b ∈ Finset.range bbDpBucketCount,
         recordedBucketCounts (workerCounts [[0, 1, 0], [1, 2, 63]]) 2 b
       = ∑ w ∈ Finset.range 2, (([[0, 1, 0], [1, 2, 63]] : List (List Nat)).getD w []).length)) :=
  ⟨by decide, fx_count_conservation [[0, 1, 0], [1, 2, 63]] (by decide)⟩

end BladebitSpec
